import Mathlib

/-!
Verification of the state-tracking and idempotent-processing lifecycle engine
of the doodlify repository (orchestrator.py, config_manager.py, git_agent.py,
models.py and agents/image_agent.py), via a shallow embedding.

Modelling conventions:
* A repository file is identified by an `FPath`: the list of directory
  components plus the base name as a list of characters.  All paths are
  repo-relative (the `repo_path` prefix of the Python code is dropped; the
  `relative_to(repo_path)` call of the source therefore becomes the identity).
  The leading `/` and `./` normalisation of the source is inherent in this
  structured representation.
* File contents are opaque byte lists (`Bytes`).  The repository checkout is a
  finite association list `FS` from paths to bytes, in directory-walk order.
* Timestamps (`datetime.utcnow()`) are modelled by a logical clock (`Nat`)
  carried by the world state and bumped on every persisting update.
* The external generative capabilities (image transform, text adaptation,
  commit, push/PR) are parameters of the embedded functions, exactly at the
  interface boundary the source calls them (`Except`/`Option` results model
  the exceptions those calls can raise).
* The world state also carries ghost logs (`transformLog`, `backupLog`,
  `commitLog`, `processLog`, `pushLog`) recording each invocation of an
  external capability, so that claims of the form "the transform is never
  invoked" are statable.
-/

namespace Doodlify

/-- Bytes of a file, opaque content. -/
abbrev Bytes := List Nat

/-- A repo-relative file path: directory components plus base name. -/
structure FPath where
  dir : List String
  base : List Char
deriving DecidableEq, Repr

/-- Model of Python `pathlib`'s stem/suffix split on a file name
(`PurePath.stem` / `PurePath.suffix`): the suffix is `name[i:]` where `i` is
the index of the last dot, provided `0 < i < len(name) - 1`; otherwise the
suffix is empty and the stem is the whole name. -/
def pySplitExt (name : List Char) : List Char × List Char :=
  let rev := name.reverse
  let sufRev := rev.takeWhile (fun c => decide (c ≠ '.'))
  let rest := rev.dropWhile (fun c => decide (c ≠ '.'))
  match rest with
  | [] => (name, [])
  | _ :: stemRev =>
    if sufRev = [] ∨ stemRev = [] then (name, [])
    else (stemRev.reverse, '.' :: sufRev.reverse)

/-- `PurePath.stem` on a base name. -/
def pyStem (name : List Char) : List Char := (pySplitExt name).1

/-- `PurePath.suffix` on a base name. -/
def pySuffix (name : List Char) : List Char := (pySplitExt name).2

/-- `Path.with_suffix`: drop the current suffix of the base name and append
the given replacement, keeping the directory. -/
def pyWithSuffix (p : FPath) (s : List Char) : FPath :=
  ⟨p.dir, pyStem p.base ++ s⟩

/-- The legacy backup path used by the orchestrator's idempotence check and
by `restore_files`: `full_path.with_suffix(full_path.suffix + '.original')`
(orchestrator.py lines 194, 538, 623). For `name.ext` this is
`name.ext.original`. -/
def legacy_backup (p : FPath) : FPath :=
  pyWithSuffix p (pySuffix p.base ++ ".original".toList)

/-- `GitAgent.get_backup_path` (git_agent.py lines 286-294): the new backup
scheme.  `hero.png ↦ hero.original.png`; a name with no suffix gets
`.original` appended. -/
def get_backup_path (p : FPath) : FPath :=
  if pySuffix p.base ≠ [] then
    ⟨p.dir, pyStem p.base ++ (".original".toList ++ pySuffix p.base)⟩
  else
    ⟨p.dir, p.base ++ ".original".toList⟩

/-- The string concatenation `rel_path + '.original'` used by
`Orchestrator.restore_files` when discarding backup entries from
`modified_files` (orchestrator.py line 207). -/
def append_original (p : FPath) : FPath :=
  ⟨p.dir, p.base ++ ".original".toList⟩

/-- The repository checkout: an association list from repo-relative paths to
file bytes, in directory-walk order. -/
abbrev FS := List (FPath × Bytes)

namespace FS

/-- Look up the bytes stored at a path. -/
def get : FS → FPath → Option Bytes
  | [], _ => none
  | (q, c) :: t, p => if q = p then some c else get t p

/-- Write bytes at a path, overwriting an existing entry or appending a new
one. -/
def set : FS → FPath → Bytes → FS
  | [], p, b => [(p, b)]
  | (q, c) :: t, p, b => if q = p then (p, b) :: t else (q, c) :: set t p b

/-- Delete the entry at a path (`Path.unlink`). -/
def del (fs : FS) (p : FPath) : FS :=
  fs.filter (fun e => decide (e.1 ≠ p))

end FS

/-- `GitAgent.backup_file` (git_agent.py lines 274-283): fail when the file
does not exist; otherwise copy its bytes to the new-scheme backup path
(`shutil.copy2`, overwriting any prior backup) and return the backup's
repo-relative path together with the updated checkout. -/
def backup_file (fs : FS) (p : FPath) : Except Unit (FPath × FS) :=
  match fs.get p with
  | none => .error ()
  | some b =>
    let bp := get_backup_path p
    .ok (bp, fs.set bp b)

/-- `ImageAgent.is_supported_format` (image_agent.py lines 138-141). -/
def is_supported_format (p : FPath) : Bool :=
  let s := (pySuffix p.base).map Char.toLower
  decide (s = ".png".toList ∨ s = ".jpg".toList ∨ s = ".jpeg".toList ∨ s = ".webp".toList)

/-- Event status strings of `EventProgress.status` (models.py line 96):
pending, analyzing, processing, completed, failed. -/
inductive EStatus where
  | pending
  | analyzing
  | processing
  | completed
  | failed
deriving DecidableEq, Repr

/-- Per-file status strings of the `file_status` map
(models.py lines 108-114): processed, unsupported, missing, skipped, pending. -/
inductive FStat where
  | processed
  | unsupported
  | missing
  | skipped
  | pending
deriving DecidableEq, Repr

/-- One value of the `file_status` map:
`{status, updated_at, details?}` (models.py lines 108-114). -/
structure FileStat where
  status : FStat
  updated_at : Nat
  details : Option String := none
deriving DecidableEq, Repr

/-- The per-file status map keyed by repo-relative path. -/
abbrev FMap := List (FPath × FileStat)

/-- Dictionary read of the `file_status` map. -/
def FMap.getEntry : FMap → FPath → Option FileStat
  | [], _ => none
  | (q, c) :: t, p => if q = p then some c else FMap.getEntry t p

/-- Dictionary read `file_status.get(rel_path, {}).get("status")`. -/
def FMap.getStat (m : FMap) (p : FPath) : Option FStat :=
  (FMap.getEntry m p).map (·.status)

/-- Dictionary write `file_status[rel_path] = {...}`. -/
def FMap.setStat : FMap → FPath → FileStat → FMap
  | [], p, v => [(p, v)]
  | (q, c) :: t, p, v => if q = p then (p, v) :: t else (q, c) :: FMap.setStat t p v

/-- A calendar date as produced by
`datetime.strptime(s, "%Y-%m-%d").date()`; Python `date` objects compare
lexicographically on (year, month, day). -/
structure PDate where
  y : Nat
  m : Nat
  d : Nat
deriving DecidableEq, Repr

/-- Python `date.__le__`: lexicographic comparison. -/
def PDate.ble (a b : PDate) : Bool :=
  decide (a.y < b.y) ||
    (decide (a.y = b.y) &&
      (decide (a.m < b.m) || (decide (a.m = b.m) && decide (a.d ≤ b.d))))

/-- `EventProgress` (models.py lines 94-114). -/
structure EventProgress where
  status : EStatus
  analyzed : Bool := false
  processed : Bool := false
  pushed : Bool := false
  branch_created : Bool := false
  pr_created : Bool := false
  pr_url : Option String := none
  commit_sha : Option String := none
  modified_files : List FPath := []
  error : Option String := none
  started_at : Option Nat := none
  completed_at : Option Nat := none
  file_status : FMap := []
deriving DecidableEq, Repr

/-- `EventLock` (models.py lines 117-121): the event configuration fields
plus progress and the last-executed marker.  The start/end dates are stored
already parsed (the `strptime` calls of `get_active_events` are modelled by
this structured representation); the cached per-event analysis is handled at
the call sites as a capability parameter. -/
structure EventLock where
  id : String
  name : String
  description : String
  startDate : PDate
  endDate : PDate
  branch : String
  progress : EventProgress
  last_executed : Option Nat := none
deriving DecidableEq, Repr

/-- A partial update of `EventProgress`, modelling the keyword arguments of
`ConfigManager.update_event_progress(event_id, **kwargs)`
(config_manager.py lines 193-203): each `some` field is a named attribute
set by the call, each `none` field is left untouched. -/
structure ProgressPatch where
  status : Option EStatus := none
  analyzed : Option Bool := none
  processed : Option Bool := none
  pushed : Option Bool := none
  branch_created : Option Bool := none
  pr_created : Option Bool := none
  pr_url : Option (Option String) := none
  commit_sha : Option (Option String) := none
  modified_files : Option (List FPath) := none
  error : Option (Option String) := none
  started_at : Option (Option Nat) := none
  completed_at : Option (Option Nat) := none
  file_status : Option FMap := none

/-- Apply a patch: `setattr(event_lock.progress, key, value)` for every
provided keyword. -/
def apply_patch (k : ProgressPatch) (pr : EventProgress) : EventProgress :=
  { status := k.status.getD pr.status
    analyzed := k.analyzed.getD pr.analyzed
    processed := k.processed.getD pr.processed
    pushed := k.pushed.getD pr.pushed
    branch_created := k.branch_created.getD pr.branch_created
    pr_created := k.pr_created.getD pr.pr_created
    pr_url := k.pr_url.getD pr.pr_url
    commit_sha := k.commit_sha.getD pr.commit_sha
    modified_files := k.modified_files.getD pr.modified_files
    error := k.error.getD pr.error
    started_at := k.started_at.getD pr.started_at
    completed_at := k.completed_at.getD pr.completed_at
    file_status := k.file_status.getD pr.file_status }

/-- The mutable world: the repository checkout, the persisted ledger
(`ConfigLock.events`; every `update_event_progress` call saves the lock, so
the events list here always models the persisted file), a logical clock for
`utcnow()` timestamps, and ghost logs recording each invocation of an
external capability. -/
structure World where
  fs : FS
  events : List EventLock
  clock : Nat := 0
  transformLog : List FPath := []
  backupLog : List FPath := []
  commitLog : List (List FPath) := []
  processLog : List String := []
  pushLog : List String := []
deriving DecidableEq, Repr

/-- `ConfigManager.get_event_lock` (config_manager.py lines 183-191): first
event with the given id, if any. -/
def get_event_lock (w : World) (eid : String) : Option EventLock :=
  w.events.find? (fun e => decide (e.id = eid))

/-- The progress record of the event with the given id. -/
def progress_of (w : World) (eid : String) : Option EventProgress :=
  (get_event_lock w eid).map (·.progress)

/-- Patch the first event with the given id (the object returned by
`get_event_lock` is mutated in place by `update_event_progress`). -/
def patch_first (eid : String) (k : ProgressPatch) : List EventLock → List EventLock
  | [] => []
  | e :: es =>
    if e.id = eid then { e with progress := apply_patch k e.progress } :: es
    else e :: patch_first eid k es

/-- `ConfigManager.update_event_progress` (config_manager.py lines 193-203):
set each provided attribute on the event's progress and immediately persist
(`save_lock`).  The logical clock is bumped so that subsequent `utcnow()`
timestamps differ.  (The source raises when the event id is unknown; the
claims only exercise existing events, so the unknown-id case is a no-op
here.) -/
def update_event_progress (w : World) (eid : String) (k : ProgressPatch) : World :=
  { w with events := patch_first eid k w.events, clock := w.clock + 1 }

/-- `ConfigManager.get_active_events` (config_manager.py lines 242-263),
with `today` the already computed date: keep, in ledger order, every event
whose inclusive date range contains today. -/
def get_active_events (events : List EventLock) (today : PDate) : List EventLock :=
  events.filter (fun e => PDate.ble e.startDate today && PDate.ble today e.endDate)

/-- `ConfigManager.get_unprocessed_active_events`
(config_manager.py lines 281-284). -/
def get_unprocessed_active_events (events : List EventLock) (today : PDate) : List EventLock :=
  (get_active_events events today).filter (fun e => !e.progress.processed)

/-- The pydantic default of `ProjectConfig.timeZone` (models.py lines 16-19):
a configuration with no `timeZone` key is filled with this value. -/
def defaultTimeZone : String := "America/Montreal"

/-- The project's `timeZone` attribute after model validation: the JSON field
when present, else the pydantic default. -/
def project_time_zone (tzField : Option String) : String :=
  tzField.getD defaultTimeZone

/-- `ConfigManager.get_project_timezone` (config_manager.py lines 265-279)
against an abstract IANA database `db` (the `ZoneInfo` capability, mapping a
zone name to its UTC offset in minutes): a falsy (empty) name is never looked
up, and a name the database does not know yields `none` (the `except` branch
setting `_tz = None`). -/
def get_project_timezone (db : String → Option Int) (tzField : Option String) : Option Int :=
  let tz_name := project_time_zone tzField
  if tz_name = "" then none else db tz_name

/-- The day index of an instant (minutes since epoch) in UTC:
`datetime.utcnow().date()`.  Calendar rendering of the day index is
irrelevant to the claims; the local date changes exactly when local time
crosses a multiple of 1440 minutes. -/
def utc_today (utcMin : Int) : Int := Int.fdiv utcMin 1440

/-- The `today` computed by `get_active_events` (config_manager.py lines
247-252): `datetime.utcnow().date()` when the timezone is `None`, else
`datetime.now(tz).date()` (the day index of the offset-shifted instant). -/
def today_for_events (db : String → Option Int) (tzField : Option String) (utcMin : Int) : Int :=
  match get_project_timezone db tzField with
  | none => utc_today utcMin
  | some off => Int.fdiv (utcMin + off) 1440

/-- The component list of a path (directories plus base name). -/
def FPath.components (p : FPath) : List String := p.dir ++ [String.mk p.base]

/-- Whether a directory exists in the checkout (some file lives under it). -/
def dirExists (fs : FS) (d : List String) : Bool :=
  fs.any (fun e => d.isPrefixOf e.1.dir)

/-- `Path.rglob(normalized)`: first file (in walk order) whose repo-relative
path ends with the given component sequence. -/
def rglobFirst (fs : FS) (target : List String) : Option FPath :=
  (fs.find? (fun e => target.isSuffixOf (FPath.components e.1))).map (·.1)

/-- `Path.rglob(name)`: first file (in walk order) with the given base name. -/
def rglobFirstName (fs : FS) (b : List Char) : Option FPath :=
  (fs.find? (fun e => decide (e.1.base = b))).map (·.1)

/-- `GitAgent.find_file` (git_agent.py lines 130-195) on the checkout model.
The candidate list is built exactly as in the source (repo-root direct, then
per source root the direct / `web-ui/src` / `public` nestings, then the
repo-root `web-ui/src` and `public` heuristics when those directories exist);
as in the source, the `rglob` fallbacks are executed *before* the candidate
existence loop, and the first computed candidate is returned unchanged when
nothing exists. -/
def find_file (fs : FS) (sources : List (List String)) (p : FPath) : FPath :=
  let cands : List FPath :=
    ⟨p.dir, p.base⟩ ::
      (sources.flatMap (fun s =>
        [⟨s ++ p.dir, p.base⟩,
         ⟨s ++ ["web-ui", "src"] ++ p.dir, p.base⟩,
         ⟨s ++ ["public"] ++ p.dir, p.base⟩]))
      ++ (if dirExists fs ["web-ui", "src"] then [⟨["web-ui", "src"] ++ p.dir, p.base⟩] else [])
      ++ (if dirExists fs ["public"] then [⟨["public"] ++ p.dir, p.base⟩] else [])
  match rglobFirst fs (FPath.components p) with
  | some hit => hit
  | none =>
    match rglobFirstName fs p.base with
    | some hit => hit
    | none =>
      match cands.find? (fun c => (fs.get c).isSome) with
      | some c => c
      | none => cands.headD ⟨p.dir, p.base⟩

/-- The `--only` allow-list check of the per-file loop (orchestrator.py lines
531-535): a file is passed over when an allow-list is given and neither its
repo-relative path nor its bare file name is in it. -/
def only_excludes (only : Option (List FPath)) (rel : FPath) : Bool :=
  match only with
  | none => false
  | some s => !(decide (rel ∈ s)) && !(decide ((⟨[], rel.base⟩ : FPath) ∈ s))

/-- Python string sort order on path renderings (`sorted(...)`). -/
def charsLe : List Char → List Char → Bool
  | [], _ => true
  | _ :: _, [] => false
  | a :: as, b :: bs => if a = b then charsLe as bs else decide (a < b)

/-- The character rendering of a path, for sorting. -/
def pathChars (p : FPath) : List Char :=
  (String.intercalate "/" (FPath.components p)).toList

/-- Insertion step of `sorted`. -/
def insertSorted (x : FPath) : List FPath → List FPath
  | [] => [x]
  | y :: ys => if charsLe (pathChars x) (pathChars y) then x :: y :: ys else y :: insertSorted x ys

/-- `sorted(...)` over paths. -/
def sortPaths (l : List FPath) : List FPath := l.foldr insertSorted []

/-- `sorted(set(xs) | {extra...})`: deduplicate and sort. -/
def sorted_union (xs extra : List FPath) : List FPath :=
  sortPaths ((xs ++ extra).dedup)

/-- The per-file loop of `Orchestrator._process_images` (orchestrator.py
lines 522-594), threading the local `file_status` dict and `modified`
accumulator exactly as the source does.  `transform` is the external
image-transform capability (`ImageAgent.transform_image`, writing in place);
its exceptions are the `.error` case.  The ghost `transformLog` records every
invocation of the capability, successful or not. -/
def process_images_go (transform : FPath → Bytes → Except String Bytes)
    (sources : List (List String)) (evId : String)
    (only : Option (List FPath)) (force : Bool) :
    List FPath → FMap → List FPath → World → List FPath × World
  | [], _, modified, w => (modified, w)
  | p :: rest, fstat, modified, w =>
    let full := find_file w.fs sources p
    let rel := full
    if only_excludes only rel then
      process_images_go transform sources evId only force rest fstat modified w
    else
      let backup_full := legacy_backup full
      if (w.fs.get backup_full).isSome && !force then
        -- skip (backup exists); optionally record as processed if not present
        if FMap.getStat fstat rel ≠ some .processed then
          let fstat' := FMap.setStat fstat rel ⟨.processed, w.clock, none⟩
          let w' := update_event_progress w evId { file_status := some fstat' }
          process_images_go transform sources evId only force rest fstat' modified w'
        else
          process_images_go transform sources evId only force rest fstat modified w
      else if w.fs.get full = none then
        -- skip missing file
        let fstat' := FMap.setStat fstat rel ⟨.missing, w.clock, none⟩
        let w' := update_event_progress w evId { file_status := some fstat' }
        process_images_go transform sources evId only force rest fstat' modified w'
      else
        match backup_file w.fs rel with
        | .error _ =>
          -- FileNotFoundError from backup_file, caught by the per-file except
          let fstat' := FMap.setStat fstat rel ⟨.skipped, w.clock, some "File not found"⟩
          let w' := update_event_progress w evId { file_status := some fstat' }
          process_images_go transform sources evId only force rest fstat' modified w'
        | .ok (bkRel, fs1) =>
          let w1 : World := { w with
            fs := fs1
            backupLog := w.backupLog ++ [rel]
            transformLog := w.transformLog ++ [full] }
          match transform full ((fs1.get full).getD []) with
          | .error msg =>
            -- transform failure: per-file skip with details (backup remains)
            let fstat' := FMap.setStat fstat rel ⟨.skipped, w1.clock, some msg⟩
            let w' := update_event_progress w1 evId { file_status := some fstat' }
            process_images_go transform sources evId only force rest fstat' modified w'
          | .ok newB =>
            let w2 : World := { w1 with fs := w1.fs.set full newB }
            let modified' := modified ++ [rel, bkRel]
            let fstat' := FMap.setStat fstat rel ⟨.processed, w2.clock, none⟩
            let progressMod := ((progress_of w2 evId).map (·.modified_files)).getD []
            let current_mod := sorted_union progressMod [rel, bkRel]
            let w3 := update_event_progress w2 evId
              { file_status := some fstat', modified_files := some current_mod }
            process_images_go transform sources evId only force rest fstat' modified' w3

/-- `Orchestrator._process_images` (orchestrator.py lines 511-596): seed the
local `file_status` dict from the event's progress and run the per-file
loop. -/
def process_images (transform : FPath → Bytes → Except String Bytes)
    (sources : List (List String)) (evId : String)
    (image_paths : List FPath) (only : Option (List FPath)) (force : Bool)
    (w : World) : List FPath × World :=
  let fstat := ((progress_of w evId).map (·.file_status)).getD []
  process_images_go transform sources evId only force image_paths fstat [] w

/-- `Orchestrator._process_texts` (orchestrator.py lines 598-680) is line for
line the image loop with the text-adaptation capability
(`TextAgent.adapt_i18n_file`) in place of the image transform. -/
def process_texts (adapt : FPath → Bytes → Except String Bytes)
    (sources : List (List String)) (evId : String)
    (text_paths : List FPath) (only : Option (List FPath)) (force : Bool)
    (w : World) : List FPath × World :=
  process_images adapt sources evId text_paths only force w

/-- The opening steps of `Orchestrator._process_event` (orchestrator.py lines
379-409): record the attempt (ghost log), mark the event processing with its
start time, and create the event branch (the stash and branch version-control
calls are external capabilities modelled as succeeding; a stash-reapply
failure is non-fatal in the source), recording `branch_created`. -/
def pre_steps (ev : EventLock) (w : World) : World :=
  let w0 : World := { w with processLog := w.processLog ++ [ev.id] }
  let w1 := update_event_progress w0 ev.id
    { status := some .processing, started_at := some (some w0.clock) }
  update_event_progress w1 ev.id { branch_created := some true }

/-- The candidate narrowing of `_process_event` (orchestrator.py lines
444-455): when an allow-list is given, keep only candidates matching it by
exact repo-relative path or by bare file name. -/
def narrow_candidates (only : Option (List FPath)) (cands : List FPath) : List FPath :=
  match only with
  | none => cands
  | some s => cands.filter (fun p => decide (p ∈ s) || decide ((⟨[], p.base⟩ : FPath) ∈ s))

/-- The two per-file passes of `_process_event` (orchestrator.py lines
443-459): images then texts, extending the local `modified_files` list. -/
def run_passes (tImg tTxt : FPath → Bytes → Except String Bytes)
    (sources : List (List String)) (evId : String)
    (imgCands txtCands : List FPath) (only : Option (List FPath)) (force : Bool)
    (w : World) : List FPath × World :=
  let (imgModified, w1) := process_images tImg sources evId (narrow_candidates only imgCands) only force w
  let (txtModified, w2) := process_texts tTxt sources evId (narrow_candidates only txtCands) only force w1
  (imgModified ++ txtModified, w2)

/-- `Orchestrator._process_event` (orchestrator.py lines 373-509).
`commitCap` is the version-control commit capability
(`GitAgent.commit_changes`); its `.error` case models both the
nothing-to-commit `ValueError` and any other commit exception, caught at the
event boundary (lines 500-509) where the event is marked failed with the
error recorded.  When no files were modified the event is completed with an
explanatory note and no commit is attempted (lines 461-470).  The candidate
lists stand for the analysis capability's result (cached or freshly
computed), which is external to this core. -/
def process_event (tImg tTxt : FPath → Bytes → Except String Bytes)
    (commitCap : List FPath → Except String String)
    (sources : List (List String)) (ev : EventLock)
    (imgCands txtCands : List FPath) (only : Option (List FPath)) (force : Bool)
    (w : World) : Bool × World :=
  let w0 := pre_steps ev w
  let (modified, w1) := run_passes tImg tTxt sources ev.id imgCands txtCands only force w0
  if modified = [] then
    let w2 := update_event_progress w1 ev.id
      { status := some .completed, processed := some true,
        completed_at := some (some w1.clock),
        error := some (some "No files were modified") }
    (true, w2)
  else
    let w2 : World := { w1 with commitLog := w1.commitLog ++ [modified] }
    match commitCap modified with
    | .error e =>
      let w3 := update_event_progress w2 ev.id
        { status := some .failed, error := some (some e) }
      (false, w3)
    | .ok sha =>
      let w3 := update_event_progress w2 ev.id
        { status := some .completed, processed := some true,
          commit_sha := some (some sha),
          modified_files := some modified,
          completed_at := some (some w2.clock) }
      let w4 : World := { w3 with
        events := w3.events.map (fun e =>
          if e.id = ev.id then { e with last_executed := some w3.clock } else e) }
      (true, w4)

/-- The event loop of `Orchestrator.process` (orchestrator.py lines 358-362):
process each selected event in turn; a failed event makes the phase return
`False` immediately. -/
def process_loop (tImg tTxt : FPath → Bytes → Except String Bytes)
    (commitCap : List FPath → Except String String)
    (sources : List (List String))
    (analysisOf : String → List FPath × List FPath)
    (only : Option (List FPath)) (force : Bool) :
    List EventLock → World → Bool × World
  | [], w => (true, w)
  | e :: rest, w =>
    let (ok, w') := process_event tImg tTxt commitCap sources e
      (analysisOf e.id).1 (analysisOf e.id).2 only force w
    if ok then
      process_loop tImg tTxt commitCap sources analysisOf only force rest w'
    else
      (false, w')

/-- `Orchestrator.process` (orchestrator.py lines 313-365): select the events
(all events with the given id when `--event-id` is passed — regardless of
their processed flag — else the unprocessed active events), and run the
event loop.  An empty selection returns success.  `analysisOf` models the
per-event candidate lists obtained from the cached or fresh analysis. -/
def process_phase (tImg tTxt : FPath → Bytes → Except String Bytes)
    (commitCap : List FPath → Except String String)
    (sources : List (List String))
    (analysisOf : String → List FPath × List FPath)
    (today : PDate) (eventId : Option String)
    (only : Option (List FPath)) (force : Bool) (w : World) : Bool × World :=
  let sel := match eventId with
    | some id => w.events.filter (fun e => decide (e.id = id))
    | none => get_unprocessed_active_events w.events today
  if sel = [] then (true, w)
  else process_loop tImg tTxt commitCap sources analysisOf only force sel w

/-- `Orchestrator.restore_files` (orchestrator.py lines 151-219): for each
target, resolve it, look for the backup at
`full_path.with_suffix(full_path.suffix + '.original')`, skip with a warning
when absent, else overwrite the live file with the backup bytes, delete the
backup, mark the file pending, and discard `rel_path + '.original'` from the
event's modified files.  Returns whether anything was restored. -/
def restore_files_go (sources : List (List String)) (evId : String) :
    List FPath → FMap → List FPath → Bool → World → Bool × World
  | [], _, _, restored, w => (restored, w)
  | rel :: rest, fstat, modified, restored, w =>
    let full := find_file w.fs sources rel
    let rel_path := full
    let backup_full := legacy_backup full
    match w.fs.get backup_full with
    | none =>
      -- "No backup to restore" warning; continue
      restore_files_go sources evId rest fstat modified restored w
    | some data =>
      let fs1 := (w.fs.set full data).del backup_full
      let fstat' := FMap.setStat fstat rel_path ⟨.pending, w.clock, none⟩
      let modified' := (modified.dedup).filter (fun q => decide (q ≠ append_original rel_path))
      let w1 : World := { w with fs := fs1 }
      let w2 := update_event_progress w1 evId
        { file_status := some fstat', modified_files := some (sortPaths modified') }
      restore_files_go sources evId rest fstat' modified' true w2

/-- Entry of `restore_files`: seed the local `file_status` dict and
`modified_files` set from the event's progress and run the loop. -/
def restore_files (sources : List (List String)) (evId : String)
    (targets : List FPath) (w : World) : Bool × World :=
  match get_event_lock w evId with
  | none => (false, w)
  | some ev =>
    restore_files_go sources evId targets ev.progress.file_status
      ev.progress.modified_files false w

/-- The PR URL formatting of `_push_event` (orchestrator.py line 797):
derived from the parsed PR number, or "Unknown" when none was parsed. -/
def pr_url_string (owner repo : String) : Option Nat → String
  | some n => "https://github.com/" ++ owner ++ "/" ++ repo ++ "/pull/" ++ toString n
  | none => "Unknown"

/-- `Orchestrator._push_event` (orchestrator.py lines 746-814): push the
branch and request PR creation (`pushCap`, combining the version-control push
and the code-hosting call; `.error` models any exception, caught at lines
810-814 where the event returns failure with no progress change).  On
success the PR URL is derived from the parsed PR number, or "Unknown", and
the progress is updated and persisted. -/
def push_event (pushCap : EventLock → Except Unit (Option Nat))
    (owner repo : String) (ev : EventLock) (w : World) : Bool × World :=
  let w0 : World := { w with pushLog := w.pushLog ++ [ev.id] }
  match pushCap ev with
  | .error _ => (false, w0)
  | .ok prNum =>
    let w1 := update_event_progress w0 ev.id
      { pushed := some true, pr_created := some true,
        pr_url := some (some (pr_url_string owner repo prNum)) }
    (true, w1)

/-- The event loop of `Orchestrator.push` (orchestrator.py lines 731-735):
push each selected event; a failure returns `False` immediately, without
attempting the remaining events. -/
def push_loop (pushCap : EventLock → Except Unit (Option Nat))
    (owner repo : String) : List EventLock → World → Bool × World
  | [], w => (true, w)
  | e :: rest, w =>
    let (ok, w') := push_event pushCap owner repo e w
    if ok then push_loop pushCap owner repo rest w' else (false, w')

/-- The selection of `Orchestrator.push` (orchestrator.py lines 718-722):
every event with `processed` and not `pushed`, in ledger order. -/
def events_to_push (events : List EventLock) : List EventLock :=
  events.filter (fun e => e.progress.processed && !e.progress.pushed)

/-- `Orchestrator.push` (orchestrator.py lines 696-744). -/
def push_phase (pushCap : EventLock → Except Unit (Option Nat))
    (owner repo : String) (w : World) : Bool × World :=
  let sel := events_to_push w.events
  if sel = [] then (true, w)
  else push_loop pushCap owner repo sel w

/-- The serialized per-repo payload of the workspace-keyed lock file
(`self._lock.model_dump()`): the events plus the `last_updated` stamp
refreshed by `save_lock`. -/
structure StoredLock where
  events : List EventLock
  last_updated : Nat
deriving DecidableEq, Repr

/-- The physical workspace lock file
(`.doodlify-workspace/config-lock.json`): absent, or a JSON object keyed by
repo folder name. -/
abbrev LockStore := Option (List (String × StoredLock))

/-- JSON-object read `raw.get(repo_key)`. -/
def assoc_get : List (String × StoredLock) → String → Option StoredLock
  | [], _ => none
  | (k, v) :: t, key => if k = key then some v else assoc_get t key

/-- Read one repo's entry out of the physical file. -/
def store_get (store : LockStore) (key : String) : Option StoredLock :=
  match store with
  | none => none
  | some raw => assoc_get raw key

/-- JSON-object write `raw[repo_key] = payload`: update in place or append. -/
def assoc_set : List (String × StoredLock) → String → StoredLock →
    List (String × StoredLock)
  | [], key, v => [(key, v)]
  | (k, c) :: t, key, v =>
    if k = key then (key, v) :: t else (k, c) :: assoc_set t key v

/-- `ConfigManager.save_lock` in the workspace-keyed (non-manifest) mode
(config_manager.py lines 149-181): refresh `last_updated`, read the shared
file (treating a missing or unreadable file as an empty object), merge this
repo's entry under its key, and write the whole object back. -/
def save_lock_store (store : LockStore) (key : String) (events : List EventLock)
    (now : Nat) : LockStore :=
  some (assoc_set (store.getD []) key ⟨events, now⟩)

/-- `ConfigManager.clear_all` (config_manager.py lines 236-240): delete the
lock file if it exists (`os.remove`), dropping the in-memory lock. -/
def clear_all_store (_store : LockStore) : LockStore := none

/-- `ConfigManager.clear_event` (config_manager.py lines 223-234) at the
store level: reset the named event's progress to pending and save — which,
in the workspace-keyed mode, read-merge-writes and so touches only this
repo's entry. -/
def clear_event_store (store : LockStore) (key : String) (eid : String)
    (events : List EventLock) (now : Nat) : LockStore :=
  let events' := events.map (fun e =>
    if e.id = eid then
      { e with progress := { status := .pending }, last_executed := none }
    else e)
  save_lock_store store key events' now

/-- The dispatch of `Orchestrator.clear` (orchestrator.py lines 861-869) on
the physical store: with an event id, only that event's progress is reset
(and the lock re-saved); with no event id, the whole lock file is removed. -/
def clear_phase_store (store : LockStore) (key : String) (eventId : Option String)
    (events : List EventLock) (now : Nat) : LockStore :=
  match eventId with
  | some id => clear_event_store store key id events now
  | none => clear_all_store store

/-! Concrete scenarios used to evaluate the embedded code on explicit
inputs. -/

/-- A raster image at the repository root. -/
def hero : FPath := ⟨[], "hero.png".toList⟩

/-- The new-scheme backup `backup_file` creates for `hero.png`. -/
def heroOrig : FPath := ⟨[], "hero.original.png".toList⟩

/-- A vector image (unsupported raster format). -/
def logoSvg : FPath := ⟨[], "logo.svg".toList⟩

/-- A second raster image. -/
def logoPng : FPath := ⟨[], "logo.png".toList⟩

/-- An event active through December 2024, freshly pending. -/
def ev1 : EventLock :=
  ⟨"ev1", "Holiday", "holiday theme", ⟨2024, 12, 1⟩, ⟨2024, 12, 31⟩, "holiday",
    { status := .pending }, none⟩

/-- A first event active through 2024, freshly pending. -/
def evA : EventLock :=
  ⟨"evA", "First", "first theme", ⟨2024, 1, 1⟩, ⟨2024, 12, 31⟩, "first",
    { status := .pending }, none⟩

/-- A second event active through 2024, freshly pending. -/
def evB : EventLock :=
  ⟨"evB", "Second", "second theme", ⟨2024, 1, 1⟩, ⟨2024, 12, 31⟩, "second",
    { status := .pending }, none⟩

/-- An image transform capability that appends a byte — so original,
once-transformed and twice-transformed contents are all distinguishable. -/
def tMark : FPath → Bytes → Except String Bytes := fun _ b => .ok (b ++ [1])

/-- A text adaptation capability that succeeds without changing content. -/
def tId : FPath → Bytes → Except String Bytes := fun _ b => .ok b

/-- A commit capability that always succeeds. -/
def commitOk : List FPath → Except String String := fun _ => .ok "sha1"

/-- A commit capability that always raises. -/
def commitBoom : List FPath → Except String String := fun _ => .error "boom"

/-- Analysis capability for the single-event scenario: `hero.png` is the one
image candidate. -/
def anHero : String → List FPath × List FPath := fun _ => ([hero], [])

/-- Analysis capability for the two-event scenario. -/
def anTwo : String → List FPath × List FPath :=
  fun i => if i = "evA" then ([hero], []) else ([logoPng], [])

/-- World for the idempotence scenario: `hero.png` holds bytes `[0]`
(the original content `O`), event `ev1` pending. -/
def w1 : World := { fs := [(hero, [0])], events := [ev1] }

/-- First `process --event-id ev1` run (no force). -/
def runOnce : Bool × World :=
  process_phase tMark tId commitOk [] anHero ⟨2024, 12, 15⟩ (some "ev1") none false w1

/-- Second `process --event-id ev1` run on the resulting state (no force). -/
def runTwice : Bool × World :=
  process_phase tMark tId commitOk [] anHero ⟨2024, 12, 15⟩ (some "ev1") none false runOnce.2

/-- `restore --event-id ev1 --files hero.png` after the first run. -/
def runRestore : Bool × World := restore_files [] "ev1" [hero] runOnce.2

/-- World for the unsupported-format scenario: `logo.svg` present, no
backup. -/
def w8 : World :=
  { fs := [(logoSvg, [7])],
    events := [⟨"ev8", "E", "d", ⟨2024, 1, 1⟩, ⟨2024, 12, 31⟩, "b",
      { status := .pending }, none⟩] }

/-- The image pass over the single `.svg` candidate. -/
def runSvg : List FPath × World := process_images tMark [] "ev8" [logoSvg] none false w8

/-- World for the failure-continuation scenario: two active pending events,
each with one existing image candidate. -/
def w7 : World := { fs := [(hero, [0]), (logoPng, [1])], events := [evA, evB] }

/-- `process` over both events with a failing commit capability. -/
def runTwoFail : Bool × World :=
  process_phase tMark tId commitBoom [] anTwo ⟨2024, 6, 1⟩ none none false w7

/-- A model of the IANA timezone database restricted to the names the
scenarios use: America/Montreal at UTC-5 (in minutes), UTC at zero. -/
def db0 : String → Option Int :=
  fun s => if s = "America/Montreal" then some (-300) else if s = "UTC" then some 0 else none

/-- A processed-but-not-pushed event, for the push-phase scenario. -/
def evDone : EventLock :=
  ⟨"evDone", "Done", "done theme", ⟨2024, 1, 1⟩, ⟨2024, 12, 31⟩, "done",
    { status := .completed, processed := true }, none⟩

/-- A second processed-but-not-pushed event. -/
def evDone2 : EventLock :=
  ⟨"evDone2", "Done2", "done theme 2", ⟨2024, 1, 1⟩, ⟨2024, 12, 31⟩, "done2",
    { status := .completed, processed := true }, none⟩

/-- A third processed-but-not-pushed event. -/
def evDone3 : EventLock :=
  ⟨"evDone3", "Done3", "done theme 3", ⟨2024, 1, 1⟩, ⟨2024, 12, 31⟩, "done3",
    { status := .completed, processed := true }, none⟩

/-- World for the push-phase scenario. -/
def wPush : World := { fs := [], events := [evDone] }

/-- World for the mid-phase push-failure scenario: three selected events. -/
def wPush3 : World := { fs := [], events := [evDone, evDone2, evDone3] }

/-- A push capability that succeeds on `evDone` and raises on every other
event — so the phase fails on the second selected event, after a success. -/
def pushCapMid : EventLock → Except Unit (Option Nat) :=
  fun e => if e.id = "evDone" then .ok (some 5) else .error ()

/-! Helper lemmas. -/

theorem takeWhile_append_of_all {α : Type} (q : α → Bool) (l l' : List α)
    (h : ∀ a ∈ l, q a = true) :
    (l ++ l').takeWhile q = l ++ l'.takeWhile q := by
  induction l with
  | nil => simp
  | cons a t ih =>
    have ha : q a = true := h a (by simp)
    simp only [List.cons_append, List.takeWhile_cons, ha]
    rw [ih (fun b hb => h b (by simp [hb]))]
    simp

theorem dropWhile_append_of_all {α : Type} (q : α → Bool) (l l' : List α)
    (h : ∀ a ∈ l, q a = true) :
    (l ++ l').dropWhile q = l'.dropWhile q := by
  induction l with
  | nil => simp
  | cons a t ih =>
    have ha : q a = true := h a (by simp)
    simp only [List.cons_append, List.dropWhile_cons, ha]
    exact ih (fun b hb => h b (by simp [hb]))

theorem pySplitExt_dot (stem ext : List Char)
    (hstem : stem ≠ []) (hext : ext ≠ []) (hdot : '.' ∉ ext) :
    pySplitExt (stem ++ '.' :: ext) = (stem, '.' :: ext) := by
  have hall : ∀ a ∈ ext.reverse, (fun c => decide (c ≠ '.')) a = true := by
    intro a ha
    simp only [decide_eq_true_eq]
    intro hcontra
    exact hdot (by simpa [hcontra] using List.mem_reverse.mp ha)
  have hrev : (stem ++ '.' :: ext).reverse = ext.reverse ++ '.' :: stem.reverse := by
    simp [List.reverse_append]
  have htake : ((stem ++ '.' :: ext).reverse).takeWhile (fun c => decide (c ≠ '.')) =
      ext.reverse := by
    rw [hrev, takeWhile_append_of_all _ _ _ hall]
    simp [List.takeWhile_cons]
  have hdrop : ((stem ++ '.' :: ext).reverse).dropWhile (fun c => decide (c ≠ '.')) =
      '.' :: stem.reverse := by
    rw [hrev, dropWhile_append_of_all _ _ _ hall]
    simp [List.dropWhile_cons]
  simp only [pySplitExt, htake, hdrop]
  have h1 : ext.reverse ≠ [] := by simpa using hext
  have h2 : stem.reverse ≠ [] := by simpa using hstem
  simp [h1, h2]

theorem pySplitExt_no_dot (name : List Char) (hdot : '.' ∉ name) :
    pySplitExt name = (name, []) := by
  have hall : ∀ a ∈ name.reverse, (fun c => decide (c ≠ '.')) a = true := by
    intro a ha
    simp only [decide_eq_true_eq]
    intro hcontra
    exact hdot (by simpa [hcontra] using List.mem_reverse.mp ha)
  have htake : name.reverse.takeWhile (fun c => decide (c ≠ '.')) = name.reverse :=
    List.takeWhile_eq_self_iff.mpr hall
  have hdrop : name.reverse.dropWhile (fun c => decide (c ≠ '.')) = [] :=
    List.dropWhile_eq_nil_iff.mpr (fun a ha => hall a ha)
  simp only [pySplitExt, htake, hdrop]

theorem FS.get_set_self (fs : FS) (p : FPath) (b : Bytes) :
    (FS.set fs p b).get p = some b := by
  induction fs with
  | nil => simp [FS.set, FS.get]
  | cons e t ih =>
    obtain ⟨q, c⟩ := e
    by_cases h : q = p
    · simp [FS.set, FS.get, h]
    · simp [FS.set, FS.get, h, ih]

theorem get_backup_path_dot (d : List String) (stem ext : List Char)
    (hstem : stem ≠ []) (hext : ext ≠ []) (hdot : '.' ∉ ext) :
    get_backup_path ⟨d, stem ++ '.' :: ext⟩ =
      ⟨d, stem ++ ".original".toList ++ '.' :: ext⟩ := by
  have hsplit := pySplitExt_dot stem ext hstem hext hdot
  simp [get_backup_path, pySuffix, pyStem, hsplit]

theorem get_backup_path_no_dot (d : List String) (name : List Char)
    (hdot : '.' ∉ name) :
    get_backup_path ⟨d, name⟩ = ⟨d, name ++ ".original".toList⟩ := by
  have hsplit := pySplitExt_no_dot name hdot
  simp [get_backup_path, pySuffix, pyStem, hsplit]

/-- Claim C3: for every existing file named `name.ext`, `backup_file`
produces a byte-for-byte copy at `name.original.ext` (suffix inserted before
the extension; for an extension-less file, `name.original`), overwriting any
prior backup, and returns the backup's repo-relative path; for a non-existent
path it fails with a not-found error. -/
theorem backup_file_spec :
    (∀ (fs : FS) (d : List String) (stem ext : List Char) (b : Bytes),
      stem ≠ [] → ext ≠ [] → '.' ∉ ext →
      FS.get fs ⟨d, stem ++ '.' :: ext⟩ = some b →
      backup_file fs ⟨d, stem ++ '.' :: ext⟩ =
        .ok (⟨d, stem ++ ".original".toList ++ '.' :: ext⟩,
          FS.set fs ⟨d, stem ++ ".original".toList ++ '.' :: ext⟩ b) ∧
      FS.get (FS.set fs ⟨d, stem ++ ".original".toList ++ '.' :: ext⟩ b)
        ⟨d, stem ++ ".original".toList ++ '.' :: ext⟩ = some b) ∧
    (∀ (fs : FS) (d : List String) (name : List Char) (b : Bytes),
      '.' ∉ name →
      FS.get fs ⟨d, name⟩ = some b →
      backup_file fs ⟨d, name⟩ =
        .ok (⟨d, name ++ ".original".toList⟩,
          FS.set fs ⟨d, name ++ ".original".toList⟩ b)) ∧
    (∀ (fs : FS) (p : FPath),
      FS.get fs p = none → backup_file fs p = .error ()) := by
  refine ⟨?_, ?_, ?_⟩
  · intro fs d stem ext b hstem hext hdot hget
    constructor
    · simp [backup_file, hget, get_backup_path_dot d stem ext hstem hext hdot]
    · exact FS.get_set_self fs _ b
  · intro fs d name b hdot hget
    simp [backup_file, hget, get_backup_path_no_dot d name hdot]
  · intro fs p hget
    simp [backup_file, hget]

/-- Witness for C3 at a concrete input: backing up `img/hero.png` holding
bytes `[0]` yields `img/hero.original.png` with the same bytes. -/
theorem backup_file_spec_witness :
    backup_file [(⟨["img"], "hero.png".toList⟩, [0])] ⟨["img"], "hero.png".toList⟩ =
      .ok (⟨["img"], "hero.original.png".toList⟩,
        [(⟨["img"], "hero.png".toList⟩, [0]),
         (⟨["img"], "hero.original.png".toList⟩, [0])]) := by
  have h := (backup_file_spec.1 [(⟨["img"], "hero.png".toList⟩, [0])] ["img"]
    "hero".toList "png".toList [0] (by decide) (by decide) (by decide) (by decide)).1
  exact h.trans (congrArg Except.ok (by decide))

theorem PDate.ble_trans (a b c : PDate)
    (hab : PDate.ble a b = true) (hbc : PDate.ble b c = true) :
    PDate.ble a c = true := by
  simp only [PDate.ble, Bool.or_eq_true, Bool.and_eq_true, decide_eq_true_eq] at *
  omega

/-- Claim C4: for every ledger and date, the active-event selector returns
exactly the events whose inclusive calendar-day range
`startDate ≤ today ≤ endDate` contains today, preserving configuration
declaration order (a sublist of the ledger, never reordered by date); an
event with `startDate > endDate` is never returned. -/
theorem get_active_events_spec (events : List EventLock) (today : PDate) :
    (get_active_events events today).Sublist events ∧
    (∀ e, e ∈ get_active_events events today ↔
      e ∈ events ∧
        (PDate.ble e.startDate today = true ∧ PDate.ble today e.endDate = true)) ∧
    (∀ e, PDate.ble e.startDate e.endDate = false →
      e ∉ get_active_events events today) := by
  refine ⟨List.filter_sublist events, ?_, ?_⟩
  · intro e
    simp [get_active_events, List.mem_filter]
  · intro e hrange hmem
    have h := (List.mem_filter.mp hmem).2
    simp only [Bool.and_eq_true] at h
    have := PDate.ble_trans e.startDate today e.endDate h.1 h.2
    simp [this] at hrange

/-- Witness for C4 at a concrete input: an event spanning December 2024 is
selected on 2024-12-15. -/
theorem get_active_events_spec_witness :
    ev1 ∈ get_active_events [ev1] ⟨2024, 12, 15⟩ :=
  ((get_active_events_spec [ev1] ⟨2024, 12, 15⟩).2.1 ev1).mpr
    ⟨by decide, by decide, by decide⟩

/-- Counterexample to claim C5: with the timezone *absent* from the
configuration, the pydantic default `America/Montreal` (a valid zone of the
database model) is applied, so at 100 minutes past a UTC midnight the
active-event computation evaluates "today" to the *previous* Montreal day,
not the UTC day — "absent" does not fall back to UTC. -/
theorem c5_absent_timezone_not_utc :
    get_project_timezone db0 none = some (-300) ∧
    today_for_events db0 none 100 = -1 ∧
    utc_today 100 = 0 ∧
    today_for_events db0 none 100 ≠ utc_today 100 := by decide

/-- Claim C5 as amended: whenever the project's configured timezone *value*
is an empty string or an invalid timezone name, the active-event computation
evaluates "today" in UTC; an absent timezone field is instead filled with the
model default `America/Montreal`. -/
theorem today_utc_when_empty_or_invalid (db : String → Option Int)
    (s : String) (utcMin : Int) (h : s = "" ∨ db s = none) :
    today_for_events db (some s) utcMin = utc_today utcMin := by
  rcases h with h | h
  · simp [today_for_events, get_project_timezone, project_time_zone, h]
  · by_cases hs : s = ""
    · simp [today_for_events, get_project_timezone, project_time_zone, hs]
    · simp [today_for_events, get_project_timezone, project_time_zone, hs, h]

/-- Witness for the amended C5 at a concrete input: an invalid zone name
falls back to UTC. -/
theorem today_utc_when_empty_or_invalid_witness :
    today_for_events db0 (some "Nowhere/City") 100 = utc_today 100 :=
  today_utc_when_empty_or_invalid db0 "Nowhere/City" 100 (Or.inr (by decide))

/-- Claim C1, evaluated at the failing input: after a first `process` run on
event `ev1` has transformed `hero.png` (original bytes `[0]`, once-transformed
bytes `[0,1]`) and left its backup `hero.original.png` holding `[0]`, a second
`process` run on the same event with no force flag invokes the transform on
`hero.png` again (the transform log grows to two entries and the live file
becomes `[0,1,1]`) and recreates the backup, overwriting it with the
already-transformed bytes `[0,1]` — because the skip check consults the
legacy path `hero.png.original`, which `backup_file` never creates.  This
contradicts the claimed skip-if-backup-exists idempotence. -/
theorem c1_second_run_retransforms :
    runOnce.2.fs.get heroOrig = some [0] ∧
    runOnce.2.fs.get hero = some [0, 1] ∧
    runOnce.2.transformLog = [hero] ∧
    runTwice.2.transformLog = [hero, hero] ∧
    runTwice.2.backupLog = [hero, hero] ∧
    runTwice.2.fs.get heroOrig = some [0, 1] ∧
    runTwice.2.fs.get hero = some [0, 1, 1] := by decide

/-- Claim C2, evaluated at the failing input: after the processing step has
transformed `hero.png` (original bytes `[0]`, backup `hero.original.png`
holding `[0]` created by `backup_file`), `restore_files` on that file is a
no-op — it looks for the backup at the legacy path `hero.png.original`, finds
nothing, and returns failure; the live file keeps the transformed bytes
`[0,1]` (not the original `[0]`) and the backup remains on disk.  This
contradicts the claimed restore round-trip. -/
theorem c2_restore_after_transform_is_noop :
    runRestore.1 = false ∧
    runRestore.2.fs.get hero = some [0, 1] ∧
    runRestore.2.fs.get hero ≠ some [0] ∧
    runRestore.2.fs.get heroOrig = some [0] := by decide

/-- Claim C8, evaluated at the failing input: `logo.svg` is not a supported
raster format, yet the image pass invokes the transform capability on it (the
transform log records the invocation) and records its status as `processed`
— never `unsupported`; no format gate exists in `_process_images`. -/
theorem c8_unsupported_format_transformed :
    is_supported_format logoSvg = false ∧
    runSvg.2.transformLog = [logoSvg] ∧
    runSvg.2.backupLog = [logoSvg] ∧
    (progress_of runSvg.2 "ev8").map (fun p => FMap.getStat p.file_status logoSvg) =
      some (some .processed) ∧
    (progress_of runSvg.2 "ev8").map (fun p => FMap.getStat p.file_status logoSvg) ≠
      some (some .unsupported) := by decide

/-- Counterexample to claim C7: with two selected events `evA` and `evB` and
a commit capability that raises, the failure on `evA` is recorded
(`status=failed`, error kept) but the process phase stops there: `evB` is
never attempted (the process log holds only `evA`) and its progress is left
pending, contradicting "processing then continues to the next selected
event; the remaining events still run". -/
theorem c7_failure_does_not_continue :
    runTwoFail.1 = false ∧
    runTwoFail.2.processLog = ["evA"] ∧
    (progress_of runTwoFail.2 "evA").map (fun p => (p.status, p.error)) =
      some (.failed, some "boom") ∧
    progress_of runTwoFail.2 "evB" = some { status := .pending } := by decide

theorem find_patch_first (eid : String) (k : ProgressPatch) (l : List EventLock) :
    (patch_first eid k l).find? (fun e => decide (e.id = eid)) =
      (l.find? (fun e => decide (e.id = eid))).map
        (fun e => { e with progress := apply_patch k e.progress }) := by
  induction l with
  | nil => simp [patch_first]
  | cons e t ih =>
    by_cases h : e.id = eid
    · simp [patch_first, h, List.find?_cons]
    · simp [patch_first, h, List.find?_cons, ih]

theorem progress_of_update_self (w : World) (eid : String) (k : ProgressPatch) :
    progress_of (update_event_progress w eid k) eid =
      (progress_of w eid).map (apply_patch k) := by
  simp only [progress_of, get_event_lock, update_event_progress, find_patch_first]
  cases w.events.find? (fun e => decide (e.id = eid)) <;> simp

theorem update_event_progress_commitLog (w : World) (eid : String) (k : ProgressPatch) :
    (update_event_progress w eid k).commitLog = w.commitLog := rfl

theorem process_images_go_commitLog (t : FPath → Bytes → Except String Bytes)
    (s : List (List String)) (e : String) (o : Option (List FPath)) (f : Bool) :
    ∀ (paths : List FPath) (fstat : FMap) (modified : List FPath) (w : World),
      (process_images_go t s e o f paths fstat modified w).2.commitLog = w.commitLog := by
  intro paths
  induction paths with
  | nil => intro fstat modified w; simp [process_images_go]
  | cons p rest ih =>
    intro fstat modified w
    simp only [process_images_go]
    split
    · exact ih fstat modified w
    · split
      · split
        · rw [ih]; rfl
        · exact ih fstat modified w
      · split
        · rw [ih]; rfl
        · split
          · rw [ih]; rfl
          · split
            · rw [ih]; rfl
            · rw [ih]; rfl

theorem process_images_commitLog (t : FPath → Bytes → Except String Bytes)
    (s : List (List String)) (e : String) (paths : List FPath)
    (o : Option (List FPath)) (f : Bool) (w : World) :
    (process_images t s e paths o f w).2.commitLog = w.commitLog := by
  simp only [process_images]
  exact process_images_go_commitLog t s e o f paths _ [] w

theorem run_passes_commitLog (tImg tTxt : FPath → Bytes → Except String Bytes)
    (s : List (List String)) (eid : String) (a b : List FPath)
    (o : Option (List FPath)) (f : Bool) (w : World) :
    (run_passes tImg tTxt s eid a b o f w).2.commitLog = w.commitLog := by
  show (process_texts tTxt s eid (narrow_candidates o b) o f
      (process_images tImg s eid (narrow_candidates o a) o f w).2).2.commitLog = w.commitLog
  rw [process_texts, process_images_commitLog, process_images_commitLog]

theorem pre_steps_commitLog (ev : EventLock) (w : World) :
    (pre_steps ev w).commitLog = w.commitLog := rfl

/-- Claim C6: for every event whose processing pass transforms zero files
(the two per-file passes return an empty `modified_files` list), the event
ends with `status=completed` and `processed=true`, the explanatory note
"No files were modified" is recorded as the error field, no commit is
attempted (the commit log is unchanged), and the event is never marked
failed. -/
theorem process_event_zero_modified_completed
    (tImg tTxt : FPath → Bytes → Except String Bytes)
    (commitCap : List FPath → Except String String)
    (sources : List (List String)) (ev : EventLock)
    (imgCands txtCands : List FPath) (only : Option (List FPath)) (force : Bool)
    (w : World) (pr0 : EventProgress)
    (hrun : (run_passes tImg tTxt sources ev.id imgCands txtCands only force
      (pre_steps ev w)).1 = [])
    (hp : progress_of (run_passes tImg tTxt sources ev.id imgCands txtCands only force
      (pre_steps ev w)).2 ev.id = some pr0) :
    (process_event tImg tTxt commitCap sources ev imgCands txtCands only force w).1 = true ∧
    (process_event tImg tTxt commitCap sources ev imgCands txtCands only force w).2.commitLog =
      w.commitLog ∧
    ∃ pr', progress_of
        (process_event tImg tTxt commitCap sources ev imgCands txtCands only force w).2
        ev.id = some pr' ∧
      pr'.status = .completed ∧ pr'.processed = true ∧
      pr'.error = some "No files were modified" ∧ pr'.status ≠ .failed := by
  have hsplit : run_passes tImg tTxt sources ev.id imgCands txtCands only force
      (pre_steps ev w) =
      ([], (run_passes tImg tTxt sources ev.id imgCands txtCands only force
        (pre_steps ev w)).2) :=
    Prod.ext_iff.mpr ⟨hrun, rfl⟩
  have heq : process_event tImg tTxt commitCap sources ev imgCands txtCands only force w =
      (true, update_event_progress
        (run_passes tImg tTxt sources ev.id imgCands txtCands only force (pre_steps ev w)).2
        ev.id
        { status := some .completed, processed := some true,
          completed_at := some (some (run_passes tImg tTxt sources ev.id imgCands txtCands
            only force (pre_steps ev w)).2.clock),
          error := some (some "No files were modified") }) := by
    rw [process_event, hsplit]
    rfl
  refine ⟨by rw [heq], ?_, ?_⟩
  · rw [heq, update_event_progress_commitLog, run_passes_commitLog, pre_steps_commitLog]
  · refine ⟨apply_patch
        { status := some .completed, processed := some true,
          completed_at := some (some (run_passes tImg tTxt sources ev.id imgCands txtCands
            only force (pre_steps ev w)).2.clock),
          error := some (some "No files were modified") } pr0, ?_, ?_, ?_, ?_, ?_⟩
    · rw [heq, progress_of_update_self, hp]
      rfl
    all_goals simp [apply_patch]

/-- Witness for C6 at a concrete input: event `ev1` with no candidate files
completes with the explanatory note and an unchanged commit log. -/
theorem process_event_zero_modified_completed_witness :
    (process_event tMark tId commitOk [] ev1 [] [] none false w1).1 = true ∧
    (process_event tMark tId commitOk [] ev1 [] [] none false w1).2.commitLog = [] :=
  have h := process_event_zero_modified_completed tMark tId commitOk [] ev1 [] [] none false
    w1 { status := .processing, branch_created := true, started_at := some 0 }
    (by decide) (by decide)
  ⟨h.1, h.2.1⟩

/-- Claim C7 as amended: a per-event failure (such as a commit error) sets
that event's progress to `status=failed` with the error recorded, but it
aborts the process phase — the loop returns failure at the failing event,
so subsequent selected events are not attempted in that run. -/
theorem process_failure_aborts_phase :
    (∀ (tImg tTxt : FPath → Bytes → Except String Bytes)
       (commitCap : List FPath → Except String String)
       (sources : List (List String))
       (analysisOf : String → List FPath × List FPath)
       (only : Option (List FPath)) (force : Bool)
       (e : EventLock) (rest : List EventLock) (w : World),
      (process_event tImg tTxt commitCap sources e
        (analysisOf e.id).1 (analysisOf e.id).2 only force w).1 = false →
      process_loop tImg tTxt commitCap sources analysisOf only force (e :: rest) w =
        (false, (process_event tImg tTxt commitCap sources e
          (analysisOf e.id).1 (analysisOf e.id).2 only force w).2)) ∧
    (∀ (tImg tTxt : FPath → Bytes → Except String Bytes)
       (commitCap : List FPath → Except String String)
       (sources : List (List String)) (ev : EventLock)
       (imgCands txtCands : List FPath) (only : Option (List FPath)) (force : Bool)
       (w : World) (pr0 : EventProgress) (msg : String),
      commitCap (run_passes tImg tTxt sources ev.id imgCands txtCands only force
        (pre_steps ev w)).1 = .error msg →
      (run_passes tImg tTxt sources ev.id imgCands txtCands only force
        (pre_steps ev w)).1 ≠ [] →
      progress_of (run_passes tImg tTxt sources ev.id imgCands txtCands only force
        (pre_steps ev w)).2 ev.id = some pr0 →
      (process_event tImg tTxt commitCap sources ev imgCands txtCands only force w).1 = false ∧
      ∃ pr', progress_of
          (process_event tImg tTxt commitCap sources ev imgCands txtCands only force w).2
          ev.id = some pr' ∧
        pr'.status = .failed ∧ pr'.error = some msg) := by
  constructor
  · intro tImg tTxt commitCap sources analysisOf only force e rest w h
    have hsplit : process_event tImg tTxt commitCap sources e
        (analysisOf e.id).1 (analysisOf e.id).2 only force w =
        (false, (process_event tImg tTxt commitCap sources e
          (analysisOf e.id).1 (analysisOf e.id).2 only force w).2) :=
      Prod.ext_iff.mpr ⟨h, rfl⟩
    rw [process_loop, hsplit]
    rfl
  · intro tImg tTxt commitCap sources ev imgCands txtCands only force w pr0 msg hc hm hp
    rcases hX : run_passes tImg tTxt sources ev.id imgCands txtCands only force
      (pre_steps ev w) with ⟨m, W⟩
    rw [hX] at hc hm hp
    simp only at hc hm hp
    have heq : process_event tImg tTxt commitCap sources ev imgCands txtCands only force w =
        (false, update_event_progress { W with commitLog := W.commitLog ++ [m] } ev.id
          { status := some .failed, error := some (some msg) }) := by
      rw [process_event, hX]
      simp only [hm, if_false, hc]
    refine ⟨by rw [heq], apply_patch { status := some .failed, error := some (some msg) } pr0,
      ?_, by simp [apply_patch], by simp [apply_patch]⟩
    rw [heq, progress_of_update_self]
    have hpW : progress_of { W with commitLog := W.commitLog ++ [m] } ev.id = some pr0 := hp
    rw [hpW]
    rfl

/-- Witness for the amended C7 at a concrete input: a failing commit on the
single selected event makes the loop return failure with that event's
post-failure state. -/
theorem process_failure_aborts_phase_witness :
    process_loop tMark tId commitBoom [] anHero none false [ev1] w1 =
      (false, (process_event tMark tId commitBoom [] ev1
        (anHero "ev1").1 (anHero "ev1").2 none false w1).2) :=
  process_failure_aborts_phase.1 tMark tId commitBoom [] anHero none false ev1 [] w1
    (by decide)

theorem push_event_ok_state (pushCap : EventLock → Except Unit (Option Nat))
    (owner repo : String) (ev : EventLock) (w : World) (pn : Option Nat)
    (h : pushCap ev = .ok pn) :
    push_event pushCap owner repo ev w =
      (true, update_event_progress { w with pushLog := w.pushLog ++ [ev.id] } ev.id
        { pushed := some true, pr_created := some true,
          pr_url := some (some (pr_url_string owner repo pn)) }) := by
  rw [push_event, h]

theorem push_event_err_state (pushCap : EventLock → Except Unit (Option Nat))
    (owner repo : String) (ev : EventLock) (w : World)
    (h : pushCap ev = .error ()) :
    push_event pushCap owner repo ev w =
      (false, { w with pushLog := w.pushLog ++ [ev.id] }) := by
  rw [push_event, h]

theorem push_loop_fail_after_prefix (pushCap : EventLock → Except Unit (Option Nat))
    (owner repo : String) (e : EventLock) (rest : List EventLock)
    (he : pushCap e = .error ()) :
    ∀ (pre : List EventLock) (w : World),
      (∀ p ∈ pre, ∃ pn, pushCap p = .ok pn) →
      (push_loop pushCap owner repo (pre ++ e :: rest) w).1 = false ∧
      (push_loop pushCap owner repo (pre ++ e :: rest) w).2.pushLog =
        w.pushLog ++ pre.map (·.id) ++ [e.id] := by
  intro pre
  induction pre with
  | nil =>
    intro w _
    rw [List.nil_append, push_loop, push_event_err_state pushCap owner repo e w he]
    simp
  | cons p t ih =>
    intro w hok
    obtain ⟨pn, hpn⟩ := hok p (by simp)
    rw [List.cons_append, push_loop, push_event_ok_state pushCap owner repo p w pn hpn]
    have hnext := ih
      (update_event_progress { w with pushLog := w.pushLog ++ [p.id] } p.id
        { pushed := some true, pr_created := some true,
          pr_url := some (some (pr_url_string owner repo pn)) })
      (fun q hq => hok q (by simp [hq]))
    exact ⟨hnext.1, hnext.2.trans (by simp [update_event_progress])⟩

/-- Claim C9: the push phase selects exactly the events with `processed=true`
and `pushed=false`, in ledger order (a sublist of the ledger); on success for
an event it sets `pushed=true`, `pr_created=true` and `pr_url` and persists;
and a failure on *any* selected event aborts the phase without attempting any
subsequent event: the loop returns failure as soon as an event's push fails
(at every mid-loop state), and when the failure strikes after any prefix of
successful events, the phase's push log records exactly the successful prefix
and the failing event — no later event is ever attempted. -/
theorem push_phase_spec :
    (∀ events : List EventLock,
      (events_to_push events).Sublist events ∧
      ∀ e, e ∈ events_to_push events ↔
        e ∈ events ∧ e.progress.processed = true ∧ e.progress.pushed = false) ∧
    (∀ (pushCap : EventLock → Except Unit (Option Nat)) (owner repo : String)
       (ev : EventLock) (w : World) (pn : Option Nat) (pr0 : EventProgress),
      pushCap ev = .ok pn → progress_of w ev.id = some pr0 →
      (push_event pushCap owner repo ev w).1 = true ∧
      ∃ pr', progress_of (push_event pushCap owner repo ev w).2 ev.id = some pr' ∧
        pr'.pushed = true ∧ pr'.pr_created = true ∧
        pr'.pr_url = some (pr_url_string owner repo pn)) ∧
    (∀ (pushCap : EventLock → Except Unit (Option Nat)) (owner repo : String)
       (w : World) (e : EventLock) (rest : List EventLock),
      events_to_push w.events = e :: rest → pushCap e = .error () →
      push_phase pushCap owner repo w =
        (false, { w with pushLog := w.pushLog ++ [e.id] })) ∧
    (∀ (pushCap : EventLock → Except Unit (Option Nat)) (owner repo : String)
       (e : EventLock) (rest : List EventLock) (w : World),
      pushCap e = .error () →
      push_loop pushCap owner repo (e :: rest) w =
        (false, { w with pushLog := w.pushLog ++ [e.id] })) ∧
    (∀ (pushCap : EventLock → Except Unit (Option Nat)) (owner repo : String)
       (w : World) (pre : List EventLock) (e : EventLock) (rest : List EventLock),
      events_to_push w.events = pre ++ e :: rest →
      (∀ p ∈ pre, ∃ pn, pushCap p = .ok pn) →
      pushCap e = .error () →
      (push_phase pushCap owner repo w).1 = false ∧
      (push_phase pushCap owner repo w).2.pushLog =
        w.pushLog ++ pre.map (·.id) ++ [e.id]) := by
  refine ⟨?_, ?_, ?_, ?_, ?_⟩
  · intro events
    refine ⟨List.filter_sublist events, ?_⟩
    intro e
    simp [events_to_push, List.mem_filter, Bool.and_eq_true, Bool.not_eq_true']
  · intro pushCap owner repo ev w pn pr0 hcap hp
    have heq := push_event_ok_state pushCap owner repo ev w pn hcap
    refine ⟨by rw [heq], apply_patch
        { pushed := some true, pr_created := some true,
          pr_url := some (some (pr_url_string owner repo pn)) } pr0,
      ?_, by simp [apply_patch], by simp [apply_patch], by simp [apply_patch]⟩
    rw [heq, progress_of_update_self]
    have hpW : progress_of { w with pushLog := w.pushLog ++ [ev.id] } ev.id = some pr0 := hp
    rw [hpW]
    rfl
  · intro pushCap owner repo w e rest hsel hcap
    rw [push_phase, hsel]
    simp only [List.cons_ne_nil, if_false, push_loop,
      push_event_err_state pushCap owner repo e w hcap]
    rfl
  · intro pushCap owner repo e rest w hcap
    rw [push_loop, push_event_err_state pushCap owner repo e w hcap]
    rfl
  · intro pushCap owner repo w pre e rest hsel hok hcap
    have hne : pre ++ e :: rest ≠ ([] : List EventLock) := by simp
    have hloop := push_loop_fail_after_prefix pushCap owner repo e rest hcap pre w hok
    rw [push_phase, hsel, if_neg hne]
    exact hloop

/-- Witness for C9 at concrete inputs: an event with `processed=true`,
`pushed=false` is selected; a successful push marks it pushed; and with three
selected events where the push capability succeeds on the first and raises on
the second, the phase fails having attempted exactly the first two — the
third is never attempted. -/
theorem push_phase_spec_witness :
    evDone ∈ events_to_push [ev1, evDone] ∧
    (push_event (fun _ => .ok (some 5)) "o" "r" evDone wPush).1 = true ∧
    (push_phase pushCapMid "o" "r" wPush3).1 = false ∧
    (push_phase pushCapMid "o" "r" wPush3).2.pushLog = ["evDone", "evDone2"] :=
  have hsel := ((push_phase_spec.1 [ev1, evDone]).2 evDone).mpr
    ⟨by decide, by decide, by decide⟩
  have hup := push_phase_spec.2.1 (fun _ => .ok (some 5)) "o" "r" evDone wPush (some 5)
    evDone.progress rfl (by decide)
  have hmid := push_phase_spec.2.2.2.2 pushCapMid "o" "r" wPush3
    [evDone] evDone2 [evDone3] (by decide)
    (fun p hp => ⟨some 5, by
      have hpd : p = evDone := by simpa using hp
      rw [hpd]
      rfl⟩)
    rfl
  ⟨hsel, hup.1, hmid.1, hmid.2.trans (by decide)⟩

theorem assoc_get_set_ne (raw : List (String × StoredLock)) (key key' : String)
    (v : StoredLock) (h : key' ≠ key) :
    assoc_get (assoc_set raw key v) key' = assoc_get raw key' := by
  induction raw with
  | nil => simp [assoc_set, assoc_get, Ne.symm h]
  | cons e t ih =>
    obtain ⟨k, c⟩ := e
    by_cases hk : k = key
    · subst hk
      simp [assoc_set, assoc_get, h, Ne.symm h]
    · simp [assoc_set, assoc_get, hk, ih]

theorem assoc_get_set_self (raw : List (String × StoredLock)) (key : String)
    (v : StoredLock) :
    assoc_get (assoc_set raw key v) key = some v := by
  induction raw with
  | nil => simp [assoc_set, assoc_get]
  | cons e t ih =>
    obtain ⟨k, c⟩ := e
    by_cases hk : k = key
    · simp [assoc_set, assoc_get, hk]
    · simp [assoc_set, assoc_get, hk, ih]

/-- Claim C10: in the workspace-keyed storage mode, clearing with no event id
deletes the entire shared lock file, so every other repository's entry is
removed as well — whereas `save_lock` read-merge-writes: it preserves every
other repository's entry (and writes this repository's refreshed payload
under its own key). -/
theorem clear_all_vs_save_lock :
    (∀ (store : LockStore) (key key' : String) (events : List EventLock) (now : Nat),
      key' ≠ key →
      store_get (save_lock_store store key events now) key' = store_get store key') ∧
    (∀ (store : LockStore) (key : String) (events : List EventLock) (now : Nat),
      store_get (save_lock_store store key events now) key = some ⟨events, now⟩) ∧
    (∀ (store : LockStore) (key' : String),
      store_get (clear_all_store store) key' = none) ∧
    (∀ (store : LockStore) (key : String) (events : List EventLock) (now : Nat)
       (key' : String),
      store_get (clear_phase_store store key none events now) key' = none) := by
  refine ⟨?_, ?_, ?_, ?_⟩
  · intro store key key' events now h
    cases store with
    | none => simp [save_lock_store, store_get, assoc_set, assoc_get, Ne.symm h]
    | some raw => simpa [save_lock_store, store_get] using assoc_get_set_ne raw key key' _ h
  · intro store key events now
    cases store with
    | none => simp [save_lock_store, store_get, assoc_set, assoc_get]
    | some raw => simpa [save_lock_store, store_get] using assoc_get_set_self raw key _
  · intro store key'
    simp [clear_all_store, store_get]
  · intro store key events now key'
    simp [clear_phase_store, clear_all_store, store_get]

/-- Witness for C10 at a concrete input: a shared lock file holding another
repository's entry keeps it across a save for this repository, and loses it
when the file is cleared. -/
theorem clear_all_vs_save_lock_witness :
    store_get (save_lock_store (some [("other", ⟨[], 0⟩)]) "mine" [] 5) "other" =
      some ⟨[], 0⟩ ∧
    store_get (clear_all_store (some [("other", ⟨[], 0⟩)])) "other" = none :=
  ⟨(clear_all_vs_save_lock.1 (some [("other", ⟨[], 0⟩)]) "mine" "other" [] 5
      (by decide)).trans (by decide),
    clear_all_vs_save_lock.2.2.1 (some [("other", ⟨[], 0⟩)]) "other"⟩

end Doodlify
